import Mathlib

set_option maxHeartbeats 1000000

/-!
Verification of the SyMPC secret-sharing arithmetic engine.

The definitions below are a shallow embedding of the Python sources
`sympc/tensor/mpc_tensor.py` and `sympc/store/crypto_primitive_provider.py`.
Machine integers (torch int64 tensors) are modelled as elements of a
commutative ring; the concrete ring `ZMod (2 ^ 64)` models the 64-bit
wraparound arithmetic, and tensors are covered elementwise since every
operation involved is pointwise.  Randomness drawn from the CSPRNG is made
explicit as a stream `gen : Nat -> R` supplied as an argument.  Fallible
code returns `Except String`.
-/

/- ### Generic list helpers -/

theorem list_range_map_sum {M : Type} [AddCommMonoid M] (f : ℕ → M) (n : ℕ) :
    ((List.range n).map f).sum = ∑ i ∈ Finset.range n, f i := by
  induction n with
  | zero => simp
  | succ n ih =>
    rw [List.range_succ, List.map_append, List.sum_append, Finset.sum_range_succ, ih]
    simp

theorem getD_range_map {R : Type} (gen : ℕ → R) (m i : ℕ) (d : R) (h : i < m) :
    ((List.range m).map gen).getD i d = gen i := by
  induction m generalizing i with
  | zero => omega
  | succ m ih =>
    rw [List.range_succ, List.map_append]
    by_cases hi : i < m
    · rw [List.getD_append _ _ _ _ (by simpa using hi)]
      exact ih i hi
    · have him : i = m := by omega
      subst him
      rw [List.getD_append_right _ _ _ _ (by simp)]
      simp

theorem getD_set_ne {R : Type} (l : List R) (v d : R) (i : ℕ) (h : 1 ≤ i) :
    (l.set 0 v).getD i d = l.getD i d := by
  cases l with
  | nil => simp
  | cons a t =>
    cases i with
    | zero => omega
    | succ j => simp [List.getD]

theorem getD_set_zero {R : Type} (a : R) (t : List R) (v d : R) :
    ((a :: t).set 0 v).getD 0 d = v := by
  simp [List.getD]

/- ### Ring and fixed-point encoding -/

/-- The ring size of the session: 64-bit wraparound integers
(`sympc` uses torch int64 tensors; overflow wraps modulo `2 ^ 64`). -/
def ringSize : ℕ := 2 ^ 64

/-- A ring element: share arithmetic happens modulo `2 ^ 64`. -/
abbrev RingEl := ZMod ringSize

/-- Modelled from the spec: `FixedPointEncoder.encode` (the encoder class is
not among the provided sources).  `encode(x) = round(x * base^precision)`
cast into the ring; real scalars are modelled as rationals. -/
def fpEncode (base precision : ℕ) (x : ℚ) : ℤ :=
  round (x * (base : ℚ) ^ precision)

/-- A secret accepted by `MPCTensor.generate_shares`: an int, float or real
tensor entry (encoded on wrapping into a `ShareTensor`), or an
already-encoded share. -/
inductive SecretInput where
  | raw (x : ℚ)
  | encoded (v : RingEl)

/-- Modelled from the spec: the ring value held by the `ShareTensor` built
from a secret — raw numeric secrets are fixed-point encoded, an existing
`ShareTensor` is used as is. -/
def encodeSecret (base precision : ℕ) : SecretInput → RingEl
  | .raw x => ((fpEncode base precision x : ℤ) : RingEl)
  | .encoded v => v

namespace MPCTensor

/-- `MPCTensor.generate_shares` (mpc_tensor.py lines 229-303), with the
CSPRNG draws made explicit: `random_shares` holds the `nr_parties - 1`
values drawn from the generator, and the loop builds
`share_0 = random_shares[0]`,
`share_i = random_shares[i] - random_shares[i-1]` for `0 < i < n-1`,
`share_{n-1} = secret - random_shares[n-2]` (with `op = operator.sub`). -/
def generate_shares {R : Type} [CommRing R] (secret : R) (nr_parties : ℕ)
    (gen : ℕ → R) : List R :=
  let random_shares : List R := (List.range (nr_parties - 1)).map gen
  (List.range nr_parties).map fun i =>
    if i = 0 then random_shares.getD 0 0
    else if i < nr_parties - 1 then
      random_shares.getD i 0 - random_shares.getD (i - 1) 0
    else secret - random_shares.getD (nr_parties - 2) 0

/-- The sharing formula exactly as the specification document words it
(spec section 4.2): `share_0 = r_1`, `share_i = r_i - r_{i+1}` for middle
ranks `1 <= i <= n-2`, `share_{n-1} = encode(secret) - r_{n-1}`; the spec's
1-indexed `r_j` is draw `gen (j-1)`.  Stated only to compare against
`generate_shares`, which is taken from the source. -/
def generate_shares_specFormula {R : Type} [CommRing R] (secret : R)
    (nr_parties : ℕ) (gen : ℕ → R) : List R :=
  (List.range nr_parties).map fun i =>
    if i = 0 then gen 0
    else if i < nr_parties - 1 then gen (i - 1) - gen i
    else secret - gen (nr_parties - 2)

end MPCTensor

/- ### Telescoping sum of the generated shares -/

theorem shares_sum_aux {R : Type} [CommRing R] (secret : R) (m : ℕ) (g : ℕ → R) :
    (∑ i ∈ Finset.range (m + 2),
      (if i = 0 then g 0
       else if i < m + 1 then g i - g (i - 1)
       else secret - g m)) = secret := by
  rw [Finset.sum_range_succ, Finset.sum_range_succ']
  have h0 : (if (0 : ℕ) = 0 then g 0
      else if (0 : ℕ) < m + 1 then g 0 - g (0 - 1) else secret - g m) = g 0 := by
    simp
  have hlast : (if m + 1 = 0 then g 0
      else if m + 1 < m + 1 then g (m + 1) - g (m + 1 - 1) else secret - g m)
      = secret - g m := by
    simp
  rw [h0, hlast]
  have hmid : (∑ j ∈ Finset.range m,
      (if j + 1 = 0 then g 0
       else if j + 1 < m + 1 then g (j + 1) - g (j + 1 - 1) else secret - g m))
      = ∑ j ∈ Finset.range m, (g (j + 1) - g j) := by
    refine Finset.sum_congr rfl fun j hj => ?_
    have hjm : j < m := Finset.mem_range.mp hj
    have h1 : j + 1 ≠ 0 := by omega
    have h2 : j + 1 < m + 1 := by omega
    simp [h1, h2]
  rw [hmid, Finset.sum_range_sub]
  ring

theorem generate_shares_sum {R : Type} [CommRing R] (secret : R) (n : ℕ)
    (gen : ℕ → R) (hn : 2 ≤ n) :
    (MPCTensor.generate_shares secret n gen).sum = secret := by
  obtain ⟨m, rfl⟩ : ∃ m, n = m + 2 := ⟨n - 2, by omega⟩
  unfold MPCTensor.generate_shares
  rw [list_range_map_sum]
  have e1 : m + 2 - 1 = m + 1 := by omega
  have e2 : m + 2 - 2 = m := by omega
  simp only [e1, e2]
  exact shares_sum_aux secret m fun i => ((List.range (m + 1)).map gen).getD i 0

/- ### Claims C1 and C2: the sharing scheme -/

/-- Claim C1: for every secret that is an int, float, real tensor entry, or
already-encoded share, and every party count `n >= 2`, the `n` shares
returned by `generate_shares` sum exactly, in ring (wraparound) arithmetic,
to the fixed-point encoding of the secret (elementwise: the sum lemma holds
in any commutative ring, hence pointwise on tensors). -/
theorem generate_shares_sum_to_encoding (base precision : ℕ) (s : SecretInput)
    (n : ℕ) (gen : ℕ → RingEl) (hn : 2 ≤ n) :
    (MPCTensor.generate_shares (encodeSecret base precision s) n gen).length = n ∧
    (MPCTensor.generate_shares (encodeSecret base precision s) n gen).sum
      = encodeSecret base precision s := by
  constructor
  · unfold MPCTensor.generate_shares
    simp
  · exact generate_shares_sum _ n gen hn

theorem generate_shares_sum_to_encoding_witness :
    2 ≤ 2 ∧
    ((MPCTensor.generate_shares (encodeSecret 2 16 (.raw 2)) 2 (fun _ => 7)).length = 2 ∧
     (MPCTensor.generate_shares (encodeSecret 2 16 (.raw 2)) 2 (fun _ => 7)).sum
       = encodeSecret 2 16 (.raw 2)) :=
  ⟨by norm_num,
   generate_shares_sum_to_encoding 2 16 (.raw 2) 2 (fun _ => 7) (by norm_num)⟩

/-- Claim C2, counterexample: the spec formula `share_i = r_i - r_{i+1}` for
middle ranks disagrees with the code (which computes
`random_shares[i] - random_shares[i-1]`, i.e. `r_{i+1} - r_i`): at
`n = 3`, `secret = 0`, draws `r_1 = 1, r_2 = 0`, the code's share list
differs from the spec formula's, and the spec formula's shares do not even
sum to the encoded secret. -/
theorem generate_shares_middle_formula_cex :
    MPCTensor.generate_shares (0 : ℤ) 3 (fun i => if i = 0 then 1 else 0) ≠
      MPCTensor.generate_shares_specFormula (0 : ℤ) 3
        (fun i => if i = 0 then 1 else 0) ∧
    (MPCTensor.generate_shares_specFormula (0 : ℤ) 3
        (fun i => if i = 0 then 1 else 0)).sum ≠ 0 := by
  constructor <;> decide

/-- Claim C2, amended: `generate_shares` with party count `n` draws exactly
`n - 1` random ring elements `r_1..r_{n-1}` (the result depends only on the
first `n - 1` generator draws) and returns `share_0 = r_1`,
`share_i = r_{i+1} - r_i` for every middle rank `1 <= i <= n-2`, and
`share_{n-1} = encode(secret) - r_{n-1}` (the spec's 1-indexed `r_j` is
draw `gen (j-1)`). -/
theorem generate_shares_structure {R : Type} [CommRing R] (secret : R) (n : ℕ)
    (gen : ℕ → R) (hn : 2 ≤ n) :
    (MPCTensor.generate_shares secret n gen).length = n ∧
    (MPCTensor.generate_shares secret n gen).getD 0 0 = gen 0 ∧
    (∀ i, 1 ≤ i → i ≤ n - 2 →
      (MPCTensor.generate_shares secret n gen).getD i 0 = gen i - gen (i - 1)) ∧
    (MPCTensor.generate_shares secret n gen).getD (n - 1) 0
      = secret - gen (n - 2) ∧
    (∀ gen' : ℕ → R, (∀ i < n - 1, gen i = gen' i) →
      MPCTensor.generate_shares secret n gen
        = MPCTensor.generate_shares secret n gen') := by
  have heval : ∀ i, i < n → (MPCTensor.generate_shares secret n gen).getD i 0 =
      if i = 0 then ((List.range (n - 1)).map gen).getD 0 0
      else if i < n - 1 then
        ((List.range (n - 1)).map gen).getD i 0
          - ((List.range (n - 1)).map gen).getD (i - 1) 0
      else secret - ((List.range (n - 1)).map gen).getD (n - 2) 0 := by
    intro i hi
    exact getD_range_map _ n i 0 hi
  refine ⟨?_, ?_, ?_, ?_, ?_⟩
  · unfold MPCTensor.generate_shares
    simp
  · rw [heval 0 (by omega), if_pos rfl]
    exact getD_range_map gen (n - 1) 0 0 (by omega)
  · intro i h1 h2
    rw [heval i (by omega), if_neg (by omega), if_pos (by omega),
      getD_range_map gen (n - 1) i 0 (by omega),
      getD_range_map gen (n - 1) (i - 1) 0 (by omega)]
  · rw [heval (n - 1) (by omega), if_neg (by omega), if_neg (by omega),
      getD_range_map gen (n - 1) (n - 2) 0 (by omega)]
  · intro gen' h
    have hmap : (List.range (n - 1)).map gen = (List.range (n - 1)).map gen' := by
      apply List.map_congr_left
      intro a ha
      exact h a (List.mem_range.mp ha)
    unfold MPCTensor.generate_shares
    rw [hmap]

theorem generate_shares_structure_witness :
    2 ≤ 3 ∧
    ((MPCTensor.generate_shares (5 : ℤ) 3 (fun i => (i : ℤ) + 1)).length = 3 ∧
     (MPCTensor.generate_shares (5 : ℤ) 3 (fun i => (i : ℤ) + 1)).getD 0 0
       = (fun i : ℕ => (i : ℤ) + 1) 0 ∧
     (∀ i, 1 ≤ i → i ≤ 3 - 2 →
       (MPCTensor.generate_shares (5 : ℤ) 3 (fun i => (i : ℤ) + 1)).getD i 0
         = (fun i : ℕ => (i : ℤ) + 1) i - (fun i : ℕ => (i : ℤ) + 1) (i - 1)) ∧
     (MPCTensor.generate_shares (5 : ℤ) 3 (fun i => (i : ℤ) + 1)).getD (3 - 1) 0
       = 5 - (fun i : ℕ => (i : ℤ) + 1) (3 - 2) ∧
     (∀ gen' : ℕ → ℤ, (∀ i < 3 - 1, (fun i : ℕ => (i : ℤ) + 1) i = gen' i) →
       MPCTensor.generate_shares (5 : ℤ) 3 (fun i => (i : ℤ) + 1)
         = MPCTensor.generate_shares (5 : ℤ) 3 gen')) :=
  ⟨by norm_num, generate_shares_structure 5 3 (fun i => (i : ℤ) + 1) (by norm_num)⟩

/- ### Claim C7: integer power by square-and-multiply -/

namespace MPCTensor

/-- The while-loop of `MPCTensor.pow` (mpc_tensor.py lines 513-544), at the
level of the reconstructed (ideal, exactly-rescaled) values: `result` starts
at `1`; while `power > 0`, if the power is odd multiply `result` by `base`,
then halve the power and square the base.  Each `*` is the private
multiplication, which rescales, so ideal values form a commutative monoid. -/
def powLoop {M : Type} [CommMonoid M] (base : M) (power : ℕ) (result : M) : M :=
  if h : power = 0 then result
  else
    powLoop (base * base) (power / 2)
      (if power % 2 = 1 then result * base else result)
termination_by power
decreasing_by exact Nat.div_lt_self (Nat.pos_of_ne_zero h) (by norm_num)

/-- `MPCTensor.pow`: negative powers raise, otherwise run the
square-and-multiply loop starting from `result = 1`. -/
def pow {M : Type} [CommMonoid M] (x : M) (power : ℤ) : Except String M :=
  if power < 0 then .error "Negative integer powers are not allowed."
  else .ok (powLoop x power.toNat 1)

end MPCTensor

theorem powLoop_eq {M : Type} [CommMonoid M] (p : ℕ) (b r : M) :
    MPCTensor.powLoop b p r = r * b ^ p := by
  induction p using Nat.strong_induction_on generalizing b r with
  | _ p ih =>
    rw [MPCTensor.powLoop]
    by_cases hp : p = 0
    · simp [hp]
    · rw [dif_neg hp, ih (p / 2) (Nat.div_lt_self (Nat.pos_of_ne_zero hp) (by norm_num))]
      obtain ⟨q, c, hc, rfl⟩ : ∃ q c, c < 2 ∧ p = 2 * q + c :=
        ⟨p / 2, p % 2, by omega, by omega⟩
      have h2 : (2 * q + c) / 2 = q := by omega
      have h3 : (2 * q + c) % 2 = c := by omega
      have hbb : (b * b) ^ q = b ^ (2 * q) := by
        rw [pow_mul, pow_two]
      rw [h2, h3]
      match c, hc with
      | 0, _ =>
        rw [if_neg (by norm_num), hbb, Nat.add_zero]
      | 1, _ =>
        rw [if_pos rfl, hbb, pow_succ, mul_assoc, mul_comm b (b ^ (2 * q))]

/-- Claim C7: for every value `x` and integer exponent `k`: `pow x 0`
is `1`; `pow x k` for `k >= 0` computes `x ^ k` by binary exponentiation
built from repeated (private, rescaled) multiplication — at the level of
reconstructed ideal values, used here, the result is exactly
`reconstruct(x) ^ k`; and `pow` with a negative exponent fails with an
error.  (Fixed-point rounding noise of the real protocol is not modelled;
"within accumulated precision error" becomes exact equality here.) -/
theorem pow_spec {M : Type} [CommMonoid M] (x : M) :
    MPCTensor.pow x 0 = .ok 1 ∧
    (∀ k : ℤ, 0 ≤ k → MPCTensor.pow x k = .ok (x ^ k.toNat)) ∧
    (∀ k : ℤ, k < 0 →
      MPCTensor.pow x k = .error "Negative integer powers are not allowed.") := by
  refine ⟨?_, ?_, ?_⟩
  · rw [MPCTensor.pow, if_neg (by norm_num)]
    rw [powLoop_eq]
    simp
  · intro k hk
    rw [MPCTensor.pow, if_neg (by omega), powLoop_eq, one_mul]
  · intro k hk
    rw [MPCTensor.pow, if_pos hk]

theorem pow_spec_witness :
    MPCTensor.pow (3 : ℚ) 0 = .ok 1 ∧
    (0 ≤ (5 : ℤ) ∧ MPCTensor.pow (3 : ℚ) 5 = .ok ((3 : ℚ) ^ (5 : ℤ).toNat)) ∧
    ((-1 : ℤ) < 0 ∧
      MPCTensor.pow (3 : ℚ) (-1)
        = .error "Negative integer powers are not allowed.") :=
  ⟨(pow_spec (3 : ℚ)).1,
   ⟨by norm_num, (pow_spec (3 : ℚ)).2.1 5 (by norm_num)⟩,
   ⟨by norm_num, (pow_spec (3 : ℚ)).2.2 (-1) (by norm_num)⟩⟩

/- ### Shape inference and the orchestrated operations -/

/-- A tensor shape (list of dimension sizes). -/
abbrev Shape := List ℕ

namespace MPCTensor

/-- One broadcast dimension, torch semantics: equal sizes, or one side is 1. -/
def broadcast_dim (a b : ℕ) : Option ℕ :=
  if a = b then some a
  else if a = 1 then some b
  else if b = 1 then some a
  else none

/-- Broadcasting of right-aligned (reversed) shape lists. -/
def broadcast_rev : List ℕ → List ℕ → Option (List ℕ)
  | [], ys => some ys
  | xs, [] => some xs
  | x :: xs, y :: ys => do
      let d ← broadcast_dim x y
      let rest ← broadcast_rev xs ys
      pure (d :: rest)

/-- torch broadcasting of two shapes (used by the elementwise operators
`add`, `sub`, `mul`; the torch tensor library is an external collaborator,
modelled by its standard broadcasting rule). -/
def broadcast_shapes (x y : Shape) : Option Shape :=
  (broadcast_rev x.reverse y.reverse).map List.reverse

/-- Result shape of `operator.matmul` on two 2-D tensors: inner dimensions
must agree.  (Non-2-D torch matmul is outside this model.) -/
def matmul_shape : Shape → Shape → Option Shape
  | [a, b], [b2, c] => if b = b2 then some [a, c] else none
  | _, _ => none

/-- Result shape of `torch.conv2d` with the default stride `1`, padding `0`,
dilation `1`, groups `1`: `[n, c, h, w]` convolved with `[f, c, kh, kw]`
gives `[n, f, h - kh + 1, w - kw + 1]`. -/
def conv2d_shape : Shape → Shape → Option Shape
  | [n, c, h, w], [f, c2, kh, kw] =>
      if c = c2 ∧ 0 < kh ∧ kh ≤ h ∧ 0 < kw ∧ kw ≤ w then
        some [n, f, h - kh + 1, w - kw + 1]
      else none
  | _, _ => none

/-- The shape produced by applying the public torch operation `op_str` to
placeholder tensors of the given shapes (external collaborator). -/
def torch_op_shape (op_str : String) (x y : Shape) : Option Shape :=
  if op_str = "matmul" then matmul_shape x y
  else if op_str = "conv2d" then conv2d_shape x y
  else broadcast_shapes x y

/-- `MPCTensor._get_shape` (mpc_tensor.py lines 611-631): fails when either
input shape is `None`, otherwise applies the equivalent public operation to
empty placeholder tensors of the given shapes and reads the result's shape
(a torch shape mismatch raises, modelled as the error branch). -/
def get_shape (op_str : String) (x_shape y_shape : Option Shape) :
    Except String Shape :=
  match x_shape, y_shape with
  | some xs, some ys =>
    match torch_op_shape op_str xs ys with
    | some s => .ok s
    | none => .error (op_str ++ ": shape mismatch")
  | _, _ => .error "Shapes should not be None"

/-- The orchestrator's view of a distributed tensor: one share handle per
party (modelled by the party's ring value, scalar/elementwise), the
session identifier, and the logical shape (possibly still unset). -/
structure MPCTensorM (R : Type) where
  share_ptrs : List R
  session_uuid : ℕ
  shape : Option Shape

/-- `getattr(operator, op_str)` at the level of one tensor element:
`add`, `sub` and the multiplicative operators (`mul`, `matmul`, `conv2d`
reduce to products elementwise in this scalar model). -/
def ringOp {R : Type} [CommRing R] (op_str : String) (a b : R) : R :=
  if op_str = "add" then a + b
  else if op_str = "sub" then a - b
  else a * b

/-- `MPCTensor.__apply_public_op` (mpc_tensor.py lines 582-609): for
`mul`/`matmul` every party multiplies its own share by the public value;
for `add`/`sub` only the rank-0 entry of the share list is replaced
(`shares[0] = op(shares[0], y)`); other operators are unsupported.  The
new tensor keeps the session and has no shape yet. -/
def apply_public_op {R : Type} [CommRing R] (self : MPCTensorM R) (y : R)
    (op_str : String) : Except String (MPCTensorM R) :=
  if op_str = "mul" ∨ op_str = "matmul" then
    .ok { share_ptrs := self.share_ptrs.map fun s => ringOp op_str s y,
          session_uuid := self.session_uuid, shape := none }
  else if op_str = "add" ∨ op_str = "sub" then
    .ok { share_ptrs :=
            self.share_ptrs.set 0 (ringOp op_str (self.share_ptrs.getD 0 0) y),
          session_uuid := self.session_uuid, shape := none }
  else .error (op_str ++ " not supported")

/-- The per-party stores of consumed crypto primitives, as touched by the
SPDZ protocol (opaque payloads). -/
abbrev PrimStore := List ℕ

/-- `MPCTensor.__apply_private_op` (mpc_tensor.py lines 546-580): first the
session check — a mismatch raises before any share combination and before
the SPDZ protocol (and hence the primitive store) is touched; then
`mul`/`matmul`/`conv2d` delegate to `spdz.mul_master` (the spdz module is
not among the provided sources, so it is an abstract parameter here,
modelled from the spec as a function also consuming the primitive store)
and the result's shape is inferred; `add`/`sub` combine the share lists
pointwise; any other operator leaves `result` unbound (a Python
`UnboundLocalError`, modelled as an error). -/
def apply_private_op {R : Type} [CommRing R] (self y : MPCTensorM R)
    (op_str : String)
    (spdz_mul : MPCTensorM R → MPCTensorM R → String → PrimStore →
      MPCTensorM R × PrimStore)
    (store : PrimStore) : Except String (MPCTensorM R) × PrimStore :=
  if y.session_uuid ≠ self.session_uuid then
    (.error "Need same session", store)
  else if op_str = "mul" ∨ op_str = "matmul" ∨ op_str = "conv2d" then
    let res := spdz_mul self y op_str store
    match get_shape op_str self.shape y.shape with
    | .ok sh => (.ok { res.1 with shape := some sh }, res.2)
    | .error e => (.error e, res.2)
  else if op_str = "sub" ∨ op_str = "add" then
    (.ok { share_ptrs :=
             (self.share_ptrs.zip y.share_ptrs).map fun p => ringOp op_str p.1 p.2,
           session_uuid := self.session_uuid, shape := self.shape }, store)
  else (.error "local variable result referenced before assignment", store)

/-- The public/private right-hand operand of an orchestrated operation
(public operands are scalar values in this model). -/
inductive Operand (R : Type) where
  | pub (v : R)
  | priv (t : MPCTensorM R)

/-- `isinstance(y, MPCTensor)` — is the right operand private? -/
def Operand.isPrivate {R : Type} : Operand R → Bool
  | .pub _ => false
  | .priv _ => true

/-- The `y_shape` computed in `__apply_op`: `(1,)` for a public scalar,
else the operand's shape. -/
def Operand.yShape {R : Type} : Operand R → Option Shape
  | .pub _ => some [1]
  | .priv t => t.shape

/-- Session data read by `__apply_op`: party count and encoder config. -/
structure SessionCfg where
  nr_parties : ℕ
  encoder_base : ℕ
  encoder_precision : ℕ

/-- The private/public dispatch at the top of `__apply_op`
(mpc_tensor.py lines 651-656). -/
def apply_op_inner {R : Type} [CommRing R] (self : MPCTensorM R)
    (y : Operand R) (op_str : String)
    (spdz_mul : MPCTensorM R → MPCTensorM R → String → PrimStore →
      MPCTensorM R × PrimStore)
    (store : PrimStore) : Except String (MPCTensorM R) × PrimStore :=
  match y with
  | .priv t => apply_private_op self t op_str spdz_mul store
  | .pub v => (apply_public_op self v op_str, store)

/-- `MPCTensor.__apply_op` (mpc_tensor.py lines 633-675): dispatch on the
operand kind, infer the result shape, then — exactly under the source
condition `op_str in {"mul", "matmul", "conv2d"} and not (is_private and
nr_parties == 2)` — divide the result by `encoder_base ** encoder_precision`
(`result.div` delegates to `spdz.public_divide`, not among the provided
sources, hence an abstract parameter `divFn`). -/
def apply_op {R : Type} [CommRing R] (cfg : SessionCfg) (self : MPCTensorM R)
    (y : Operand R) (op_str : String)
    (spdz_mul : MPCTensorM R → MPCTensorM R → String → PrimStore →
      MPCTensorM R × PrimStore)
    (divFn : MPCTensorM R → ℕ → MPCTensorM R)
    (store : PrimStore) : Except String (MPCTensorM R) × PrimStore :=
  match apply_op_inner self y op_str spdz_mul store with
  | (.error e, store2) => (.error e, store2)
  | (.ok result, store2) =>
    match get_shape op_str self.shape y.yShape with
    | .error e => (.error e, store2)
    | .ok sh =>
      if (op_str = "mul" ∨ op_str = "matmul" ∨ op_str = "conv2d") ∧
          ¬(y.isPrivate = true ∧ cfg.nr_parties = 2) then
        (.ok (divFn { result with shape := some sh }
                (cfg.encoder_base ^ cfg.encoder_precision)), store2)
      else (.ok { result with shape := some sh }, store2)

end MPCTensor

/- ### Claim C8: shape inference -/

/-- Claim C8: shape inference is a pure function of the operation tag and
the operand shapes (it is a Lean function of exactly those):
`get_shape "matmul" (3,4) (4,5) = (3,5)`;
`get_shape "add" (2,3) (2,3) = (2,3)`; mismatched inner dimensions fail
with a shape error; and it fails whenever either input shape is unset
(`none`) at the time an operation needing both is attempted. -/
theorem get_shape_spec :
    MPCTensor.get_shape "matmul" (some [3, 4]) (some [4, 5]) = .ok [3, 5] ∧
    MPCTensor.get_shape "add" (some [2, 3]) (some [2, 3]) = .ok [2, 3] ∧
    (∃ e, MPCTensor.get_shape "matmul" (some [3, 4]) (some [5, 6]) = .error e) ∧
    (∀ (op_str : String) (ys : Option Shape),
      MPCTensor.get_shape op_str none ys = .error "Shapes should not be None" ∧
      MPCTensor.get_shape op_str ys none = .error "Shapes should not be None") := by
  refine ⟨rfl, rfl, ⟨"matmul: shape mismatch", rfl⟩, ?_⟩
  intro op_str ys
  exact ⟨by cases ys <;> rfl, by cases ys <;> rfl⟩

/- ### Claim C6: public add/sub touch only the rank-0 share -/

/-- Claim C6: adding or subtracting a public value to/from a distributed
tensor changes only the rank-0 party's share: the resulting share list has
the same length, every entry of rank `>= 1` is exactly the original one,
and only the rank-0 entry has the public value applied. -/
theorem apply_public_op_add_sub_frame {R : Type} [CommRing R]
    (self : MPCTensor.MPCTensorM R) (y : R) (op_str : String)
    (hop : op_str = "add" ∨ op_str = "sub")
    (hne : self.share_ptrs ≠ []) :
    ∃ r, MPCTensor.apply_public_op self y op_str = .ok r ∧
      r.share_ptrs.length = self.share_ptrs.length ∧
      (∀ i, 1 ≤ i → r.share_ptrs.getD i 0 = self.share_ptrs.getD i 0) ∧
      r.share_ptrs.getD 0 0
        = MPCTensor.ringOp op_str (self.share_ptrs.getD 0 0) y ∧
      r.session_uuid = self.session_uuid := by
  have hmul : ¬(op_str = "mul" ∨ op_str = "matmul") := by
    rcases hop with h | h <;> subst h <;> simp
  unfold MPCTensor.apply_public_op
  rw [if_neg hmul, if_pos hop]
  refine ⟨_, rfl, by simp, ?_, ?_, rfl⟩
  · intro i hi
    exact getD_set_ne _ _ _ i hi
  · obtain ⟨a, t, hat⟩ : ∃ a t, self.share_ptrs = a :: t := by
      cases hl : self.share_ptrs with
      | nil => exact absurd hl hne
      | cons a t => exact ⟨a, t, rfl⟩
    simp only [hat]
    exact getD_set_zero a t _ 0

theorem apply_public_op_add_sub_frame_witness :
    (("add" : String) = "add" ∨ ("add" : String) = "sub") ∧
    (([10, 20] : List ℤ) ≠ []) ∧
    (∃ r, MPCTensor.apply_public_op
        (⟨[10, 20], 0, some [2]⟩ : MPCTensor.MPCTensorM ℤ) 5 "add" = .ok r ∧
      r.share_ptrs.length = ([10, 20] : List ℤ).length ∧
      (∀ i, 1 ≤ i → r.share_ptrs.getD i 0 = ([10, 20] : List ℤ).getD i 0) ∧
      r.share_ptrs.getD 0 0
        = MPCTensor.ringOp "add" (([10, 20] : List ℤ).getD 0 0) 5 ∧
      r.session_uuid = 0) :=
  ⟨Or.inl rfl, by decide,
   apply_public_op_add_sub_frame (⟨[10, 20], 0, some [2]⟩ : MPCTensor.MPCTensorM ℤ)
     5 "add" (Or.inl rfl) (by decide)⟩

/- ### Claim C9: private ops require matching sessions -/

/-- Claim C9: every private-operand operation between two distributed
tensors fails with a session-mismatch error whenever the operands' session
identifiers differ — for every operator string and every SPDZ
implementation, and the primitive store is returned untouched (no share is
combined and no primitive is consumed before the check). -/
theorem apply_private_op_session_mismatch {R : Type} [CommRing R]
    (self y : MPCTensor.MPCTensorM R) (op_str : String)
    (spdz_mul : MPCTensor.MPCTensorM R → MPCTensor.MPCTensorM R → String →
      MPCTensor.PrimStore → MPCTensor.MPCTensorM R × MPCTensor.PrimStore)
    (store : MPCTensor.PrimStore)
    (h : y.session_uuid ≠ self.session_uuid) :
    MPCTensor.apply_private_op self y op_str spdz_mul store
      = (.error "Need same session", store) := by
  unfold MPCTensor.apply_private_op
  rw [if_pos h]

theorem apply_private_op_session_mismatch_witness :
    (1 : ℕ) ≠ 0 ∧
    MPCTensor.apply_private_op (⟨[4], 0, some [1]⟩ : MPCTensor.MPCTensorM ℤ)
        (⟨[5], 1, some [1]⟩ : MPCTensor.MPCTensorM ℤ) "mul"
        (fun a _ _ st => (a, st)) [99]
      = (.error "Need same session", [99]) :=
  ⟨by decide,
   apply_private_op_session_mismatch (⟨[4], 0, some [1]⟩ : MPCTensor.MPCTensorM ℤ)
     (⟨[5], 1, some [1]⟩ : MPCTensor.MPCTensorM ℤ) "mul"
     (fun a _ _ st => (a, st)) [99] (by decide)⟩

/- ### Claim C5: when the orchestrator rescales -/

/-- Claim C5: for every `mul`, `matmul` or `conv2d` operation that runs to
completion, the orchestrator divides the result by
`encoder_base ^ encoder_precision` exactly when the operation was not
already rescaled inside the SPDZ protocol: whenever the right operand is
public, or it is private and the session has more than 2 parties; in the
private 2-party case no extra division is applied. -/
theorem apply_op_rescale_iff {R : Type} [CommRing R]
    (cfg : MPCTensor.SessionCfg) (self : MPCTensor.MPCTensorM R)
    (y : MPCTensor.Operand R) (op_str : String)
    (spdz_mul : MPCTensor.MPCTensorM R → MPCTensor.MPCTensorM R → String →
      MPCTensor.PrimStore → MPCTensor.MPCTensorM R × MPCTensor.PrimStore)
    (divFn : MPCTensor.MPCTensorM R → ℕ → MPCTensor.MPCTensorM R)
    (store store2 : MPCTensor.PrimStore)
    (result : MPCTensor.MPCTensorM R) (sh : Shape)
    (h2 : 2 ≤ cfg.nr_parties)
    (hop : op_str = "mul" ∨ op_str = "matmul" ∨ op_str = "conv2d")
    (hinner : MPCTensor.apply_op_inner self y op_str spdz_mul store
      = (.ok result, store2))
    (hsh : MPCTensor.get_shape op_str self.shape y.yShape = .ok sh) :
    MPCTensor.apply_op cfg self y op_str spdz_mul divFn store =
      if y.isPrivate = false ∨ 2 < cfg.nr_parties then
        (.ok (divFn { result with shape := some sh }
          (cfg.encoder_base ^ cfg.encoder_precision)), store2)
      else (.ok { result with shape := some sh }, store2) := by
  unfold MPCTensor.apply_op
  rw [hinner]
  dsimp only
  rw [hsh]
  dsimp only
  by_cases hpriv : y.isPrivate = true
  · by_cases hn2 : cfg.nr_parties = 2
    · rw [if_neg (by simp [hpriv, hn2]), if_neg (by simp [hpriv, hn2])]
    · rw [if_pos ⟨hop, by simp [hn2]⟩, if_pos (by right; omega)]
  · rw [if_pos ⟨hop, by simp [hpriv]⟩, if_pos (Or.inl (by simpa using hpriv))]

theorem apply_op_rescale_iff_witness :
    2 ≤ (2 : ℕ) ∧
    (("mul" : String) = "mul" ∨ ("mul" : String) = "matmul" ∨
      ("mul" : String) = "conv2d") ∧
    MPCTensor.apply_op_inner (⟨[1, 2], 0, some [1]⟩ : MPCTensor.MPCTensorM ℤ)
        (.pub 3) "mul" (fun a _ _ st => (a, st)) []
      = (.ok (⟨[3, 6], 0, none⟩ : MPCTensor.MPCTensorM ℤ), []) ∧
    MPCTensor.get_shape "mul" (some [1]) ((MPCTensor.Operand.pub (3 : ℤ)).yShape)
      = .ok [1] ∧
    MPCTensor.apply_op ⟨2, 2, 1⟩ (⟨[1, 2], 0, some [1]⟩ : MPCTensor.MPCTensorM ℤ)
        (.pub 3) "mul" (fun a _ _ st => (a, st)) (fun t _ => t) [] =
      (if (MPCTensor.Operand.pub (3 : ℤ)).isPrivate = false ∨
          2 < (⟨2, 2, 1⟩ : MPCTensor.SessionCfg).nr_parties then
        (.ok ((fun (t : MPCTensor.MPCTensorM ℤ) (_ : ℕ) => t)
          ({ (⟨[3, 6], 0, none⟩ : MPCTensor.MPCTensorM ℤ) with shape := some [1] })
          ((⟨2, 2, 1⟩ : MPCTensor.SessionCfg).encoder_base ^
            (⟨2, 2, 1⟩ : MPCTensor.SessionCfg).encoder_precision)), [])
      else
        (.ok ({ (⟨[3, 6], 0, none⟩ : MPCTensor.MPCTensorM ℤ) with
          shape := some [1] }), [])) :=
  ⟨by norm_num, Or.inl rfl, rfl, rfl,
   apply_op_rescale_iff ⟨2, 2, 1⟩ (⟨[1, 2], 0, some [1]⟩ : MPCTensor.MPCTensorM ℤ)
     (.pub 3) "mul" (fun a _ _ st => (a, st)) (fun t _ => t) [] []
     (⟨[3, 6], 0, none⟩ : MPCTensor.MPCTensorM ℤ) [1]
     (by norm_num) (Or.inl rfl) rfl rfl⟩

/- ### The crypto primitive provider (crypto_primitive_provider.py) -/

namespace CryptoPrimitiveProvider

/-- Opaque populate kwargs (a Python dict, identified by a code). -/
abbrev PKwargs := ℕ

/-- Opaque generate kwargs. -/
abbrev GKwargs := ℕ

/-- Opaque primitive payload. -/
abbrev Prim := ℕ

/-- The empty dict `{}` — the Python default value of `p_kwargs`. -/
def emptyPKwargs : PKwargs := 0

/-- Modelled from the spec: one party's local primitive store
(`session.crypto_store`; the `CryptoStore` class is not among the provided
sources) — `populate_store` files a primitive under the operation tag,
keyed by the populate kwargs. -/
abbrev CryptoStore := List (String × Prim × PKwargs)

/-- Modelled from the spec: `CryptoStore.populate_store` hands the
primitive to the party's store tagged by `op_str` and keyed by the
populate kwargs. -/
def populate_store (store : CryptoStore) (op_str : String) (prim : Prim)
    (p : PKwargs) : CryptoStore :=
  store ++ [(op_str, prim, p)]

/-- The class-level mutable state of `CryptoPrimitiveProvider`:
`_func_providers`, `_ops_list` (flattened to an ordered tag/kwargs list;
the Python value is a defaultdict of per-tag lists, and per-tag order is
preserved here), `_LOGGING`. -/
structure ProviderState where
  func_providers : List (String × (GKwargs → List Prim))
  ops_list : List (String × Option PKwargs)
  logging : Bool

/-- The logging step of `generate_primitives` (lines 53-54): when
`_LOGGING` is set, append `p_kwargs` to the tag's log. -/
def log_update (st : ProviderState) (op_str : String) (p : Option PKwargs) :
    ProviderState :=
  if st.logging then { st with ops_list := st.ops_list ++ [(op_str, p)] } else st

/-- `CryptoPrimitiveProvider._transfer_primitives_to_parties`
(lines 67-85): require one primitive per session, else raise before the
populate loop runs; otherwise populate each session's store. -/
def transfer_primitives_to_parties (op_str : String) (primitives : List Prim)
    (sessions : List CryptoStore) (p : PKwargs) :
    Except String (List CryptoStore) :=
  if primitives.length ≠ sessions.length then
    .error "Primitives Len != Sessions Len"
  else
    .ok (((primitives.zip sessions)).map fun pr =>
      populate_store pr.2 op_str pr.1 p)

/-- `CryptoPrimitiveProvider.generate_primitives` (lines 25-65): look up
the registered generator (fail if absent), produce the primitives, append
to the log when logging is on, and — only when `p_kwargs is not None` —
distribute to the parties' stores.  The state and the (possibly updated)
stores are returned alongside the result. -/
def generate_primitives (st : ProviderState) (op_str : String)
    (sessions : List CryptoStore) (g_kwargs : GKwargs)
    (p_kwargs : Option PKwargs) :
    Except String (List Prim) × ProviderState × List CryptoStore :=
  match List.lookup op_str st.func_providers with
  | none => (.error (op_str ++ " not registered"), st, sessions)
  | some generator =>
    let primitives := generator g_kwargs
    let st2 := log_update st op_str p_kwargs
    match p_kwargs with
    | none => (.ok primitives, st2, sessions)
    | some p =>
      match transfer_primitives_to_parties op_str primitives sessions p with
      | .error e => (.error e, st2, sessions)
      | .ok sessions2 => (.ok primitives, st2, sessions2)

/-- `generate_primitives` as invoked without a `p_kwargs` argument: the
Python default is the empty dict `{}`, not `None`. -/
def generate_primitives_default (st : ProviderState) (op_str : String)
    (sessions : List CryptoStore) (g_kwargs : GKwargs) :
    Except String (List Prim) × ProviderState × List CryptoStore :=
  generate_primitives st op_str sessions g_kwargs (some emptyPKwargs)

/-- `CryptoPrimitiveProvider.start_logging` (lines 97-100). -/
def start_logging (st : ProviderState) : ProviderState :=
  { st with logging := true }

/-- `CryptoPrimitiveProvider.stop_logging` (lines 102-120): clear the flag,
serialize the log (returned here un-serialized; JSON and the optional file
write are external I/O), then clear the in-memory log — the state change
does not depend on `generate_file`. -/
def stop_logging (st : ProviderState) (generate_file : Bool) :
    List (String × Option PKwargs) × ProviderState :=
  (st.ops_list, { st with logging := false, ops_list := [] })

/-- Arguments of one `generate_primitives` call: sessions, generate kwargs,
populate kwargs. -/
abbrev CallArgs := List CryptoStore × GKwargs × Option PKwargs

/-- A sequence of `generate_primitives` calls for one tag, tracking the
provider state. -/
def run_calls (st : ProviderState) (op_str : String) (calls : List CallArgs) :
    ProviderState :=
  calls.foldl (fun s c => (generate_primitives s op_str c.1 c.2.1 c.2.2).2.1) st

/-- The log entries recorded under a tag, in order. -/
def entriesUnder (t : String) (log : List (String × Option PKwargs)) :
    List (Option PKwargs) :=
  (log.filter fun e => e.1 == t).map fun e => e.2

end CryptoPrimitiveProvider

/- ### Claims C3, C4, C10: the provider -/

open CryptoPrimitiveProvider in
/-- Claim C3: when `p_kwargs` is the skip sentinel (`None`),
`generate_primitives` returns the generated primitives without touching
any party's store; when `p_kwargs` is provided and the primitives count
differs from the sessions count, it fails with the count-mismatch error
and every store is still untouched. -/
theorem generate_primitives_skip_and_mismatch (st : ProviderState)
    (op_str : String) (sessions : List CryptoStore) (g : GKwargs)
    (gen : GKwargs → List Prim)
    (hreg : List.lookup op_str st.func_providers = some gen) :
    generate_primitives st op_str sessions g none
      = (.ok (gen g), log_update st op_str none, sessions) ∧
    (∀ p : PKwargs, (gen g).length ≠ sessions.length →
      generate_primitives st op_str sessions g (some p)
        = (.error "Primitives Len != Sessions Len",
           log_update st op_str (some p), sessions)) := by
  constructor
  · simp [CryptoPrimitiveProvider.generate_primitives, hreg]
  · intro p hlen
    simp [CryptoPrimitiveProvider.generate_primitives, hreg,
      CryptoPrimitiveProvider.transfer_primitives_to_parties, hlen]

open CryptoPrimitiveProvider in
theorem generate_primitives_skip_and_mismatch_witness :
    (generate_primitives
        (⟨[("mul", fun _ => [5])], [], false⟩ : ProviderState) "mul" [[], []] 0 none
      = (.ok [5],
         log_update (⟨[("mul", fun _ => [5])], [], false⟩ : ProviderState) "mul" none,
         [[], []])) ∧
    ([5] : List Prim).length ≠ ([[], []] : List CryptoStore).length ∧
    (generate_primitives
        (⟨[("mul", fun _ => [5])], [], false⟩ : ProviderState) "mul" [[], []] 0 (some 3)
      = (.error "Primitives Len != Sessions Len",
         log_update (⟨[("mul", fun _ => [5])], [], false⟩ : ProviderState) "mul" (some 3),
         [[], []])) :=
  ⟨(generate_primitives_skip_and_mismatch
      (⟨[("mul", fun _ => [5])], [], false⟩ : ProviderState) "mul" [[], []] 0
      (fun _ => [5]) rfl).1,
   by decide,
   (generate_primitives_skip_and_mismatch
      (⟨[("mul", fun _ => [5])], [], false⟩ : ProviderState) "mul" [[], []] 0
      (fun _ => [5]) rfl).2 3 (by decide)⟩

open CryptoPrimitiveProvider in
/-- Claim C10: the skip sentinel is specifically `None`: calling
`generate_primitives` without a `p_kwargs` argument (the Python default,
the empty dict) still distributes the generated primitives to every
party's store; only an explicit `None` skips distribution. -/
theorem generate_primitives_default_distributes (st : ProviderState)
    (op_str : String) (sessions : List CryptoStore) (g : GKwargs)
    (gen : GKwargs → List Prim)
    (hreg : List.lookup op_str st.func_providers = some gen)
    (hlen : (gen g).length = sessions.length) :
    generate_primitives_default st op_str sessions g
      = (.ok (gen g), log_update st op_str (some emptyPKwargs),
         ((gen g).zip sessions).map fun pr =>
           populate_store pr.2 op_str pr.1 emptyPKwargs) ∧
    generate_primitives st op_str sessions g none
      = (.ok (gen g), log_update st op_str none, sessions) := by
  constructor
  · simp [CryptoPrimitiveProvider.generate_primitives_default,
      CryptoPrimitiveProvider.generate_primitives, hreg,
      CryptoPrimitiveProvider.transfer_primitives_to_parties, hlen]
  · simp [CryptoPrimitiveProvider.generate_primitives, hreg]

open CryptoPrimitiveProvider in
theorem generate_primitives_default_distributes_witness :
    List.lookup "mul"
      ((⟨[("mul", fun _ => [5, 6])], [], false⟩ : ProviderState)).func_providers
      = some (fun _ => [5, 6]) ∧
    ([5, 6] : List Prim).length = ([[], []] : List CryptoStore).length ∧
    (generate_primitives_default
        (⟨[("mul", fun _ => [5, 6])], [], false⟩ : ProviderState) "mul" [[], []] 0
      = (.ok [5, 6],
         log_update (⟨[("mul", fun _ => [5, 6])], [], false⟩ : ProviderState)
           "mul" (some emptyPKwargs),
         (([5, 6] : List Prim).zip ([[], []] : List CryptoStore)).map fun pr =>
           populate_store pr.2 "mul" pr.1 emptyPKwargs) ∧
     generate_primitives
        (⟨[("mul", fun _ => [5, 6])], [], false⟩ : ProviderState) "mul" [[], []] 0 none
      = (.ok [5, 6],
         log_update (⟨[("mul", fun _ => [5, 6])], [], false⟩ : ProviderState)
           "mul" none,
         [[], []])) :=
  ⟨rfl, by decide,
   generate_primitives_default_distributes
     (⟨[("mul", fun _ => [5, 6])], [], false⟩ : ProviderState) "mul" [[], []] 0
     (fun _ => [5, 6]) rfl (by decide)⟩

/- ### Claim C4: the logging round trip -/

open CryptoPrimitiveProvider in
theorem generate_primitives_state_eq (st : ProviderState) (op_str : String)
    (sessions : List CryptoStore) (g : GKwargs) (p : Option PKwargs) :
    (generate_primitives st op_str sessions g p).2.1 =
      match List.lookup op_str st.func_providers with
      | none => st
      | some _ => log_update st op_str p := by
  cases hl : List.lookup op_str st.func_providers with
  | none => simp [CryptoPrimitiveProvider.generate_primitives, hl]
  | some gen =>
    cases p with
    | none => simp [CryptoPrimitiveProvider.generate_primitives, hl]
    | some pp =>
      cases htr : transfer_primitives_to_parties op_str (gen g) sessions pp with
      | error e => simp [CryptoPrimitiveProvider.generate_primitives, hl, htr]
      | ok s2 => simp [CryptoPrimitiveProvider.generate_primitives, hl, htr]

open CryptoPrimitiveProvider in
theorem run_calls_log (t : String) (calls : List CallArgs) (st : ProviderState)
    (hreg : List.lookup t st.func_providers ≠ none) (hlog : st.logging = true) :
    (run_calls st t calls).ops_list
      = st.ops_list ++ calls.map (fun c => (t, c.2.2)) ∧
    (run_calls st t calls).func_providers = st.func_providers ∧
    (run_calls st t calls).logging = true := by
  induction calls generalizing st with
  | nil => simp [CryptoPrimitiveProvider.run_calls, hlog]
  | cons c cs ih =>
    obtain ⟨gn, hgn⟩ : ∃ gn, List.lookup t st.func_providers = some gn := by
      cases h : List.lookup t st.func_providers with
      | none => exact absurd h hreg
      | some gn => exact ⟨gn, rfl⟩
    have hstep : (generate_primitives st t c.1 c.2.1 c.2.2).2.1
        = log_update st t c.2.2 := by
      rw [generate_primitives_state_eq, hgn]
    have hlu : log_update st t c.2.2
        = { st with ops_list := st.ops_list ++ [(t, c.2.2)] } := by
      rw [CryptoPrimitiveProvider.log_update, if_pos hlog]
    have hrun : run_calls st t (c :: cs)
        = run_calls ({ st with ops_list := st.ops_list ++ [(t, c.2.2)] }) t cs := by
      rw [CryptoPrimitiveProvider.run_calls, List.foldl_cons, hstep, hlu]
      rfl
    rw [hrun]
    have hih := ih { st with ops_list := st.ops_list ++ [(t, c.2.2)] }
      (by simpa using hreg) hlog
    refine ⟨?_, hih.2.1, hih.2.2⟩
    rw [hih.1]
    simp

open CryptoPrimitiveProvider in
theorem entriesUnder_append (t : String)
    (l1 l2 : List (String × Option PKwargs)) :
    entriesUnder t (l1 ++ l2) = entriesUnder t l1 ++ entriesUnder t l2 := by
  simp [CryptoPrimitiveProvider.entriesUnder, List.filter_append]

open CryptoPrimitiveProvider in
theorem entriesUnder_tagged (t : String) (ps : List (Option PKwargs)) :
    entriesUnder t (ps.map fun p => (t, p)) = ps := by
  induction ps with
  | nil => rfl
  | cons p ps ih =>
    simp only [List.map_cons, CryptoPrimitiveProvider.entriesUnder,
      List.filter_cons] at ih ⊢
    simp only [beq_self_eq_true, if_pos, List.map_cons]
    rw [ih]

open CryptoPrimitiveProvider in
/-- Claim C4: after `start_logging` followed by `k` calls to
`generate_primitives` for a registered tag `t` (starting from a log with
no entries under `t`), `stop_logging` returns a log containing exactly the
`k` populate-kwargs entries under `t`, one per call in order, appended
whether or not distribution happened; and the in-memory log is empty
immediately after `stop_logging`, regardless of whether a file was
written (`b` arbitrary). -/
theorem logging_round_trip (st0 : ProviderState) (t : String)
    (calls : List CallArgs) (b : Bool)
    (hreg : List.lookup t st0.func_providers ≠ none)
    (hclean : entriesUnder t st0.ops_list = []) :
    entriesUnder t (stop_logging (run_calls (start_logging st0) t calls) b).1
      = calls.map (fun c => c.2.2) ∧
    (stop_logging (run_calls (start_logging st0) t calls) b).2.ops_list = [] := by
  have h := run_calls_log t calls (start_logging st0)
    (by simpa [CryptoPrimitiveProvider.start_logging] using hreg) rfl
  refine ⟨?_, rfl⟩
  show entriesUnder t (run_calls (start_logging st0) t calls).ops_list = _
  rw [h.1]
  have hs : (start_logging st0).ops_list = st0.ops_list := rfl
  rw [hs, entriesUnder_append, hclean, List.nil_append]
  have hmm : calls.map (fun c => (t, c.2.2))
      = (calls.map fun c => c.2.2).map (fun p => (t, p)) := by
    rw [List.map_map]
    rfl
  rw [hmm, entriesUnder_tagged]

open CryptoPrimitiveProvider in
theorem logging_round_trip_witness :
    List.lookup "mul"
      ((⟨[("mul", fun _ => [1, 2])], [], false⟩ : ProviderState)).func_providers
      ≠ none ∧
    entriesUnder "mul"
      ((⟨[("mul", fun _ => [1, 2])], [], false⟩ : ProviderState)).ops_list = [] ∧
    (entriesUnder "mul"
        (stop_logging
          (run_calls
            (start_logging (⟨[("mul", fun _ => [1, 2])], [], false⟩ : ProviderState))
            "mul" [([], 0, some 7), ([[], []], 0, none)]) false).1
      = ([([], 0, some 7), ([[], []], 0, none)] : List CallArgs).map
          (fun c => c.2.2) ∧
     (stop_logging
        (run_calls
          (start_logging (⟨[("mul", fun _ => [1, 2])], [], false⟩ : ProviderState))
          "mul" [([], 0, some 7), ([[], []], 0, none)]) false).2.ops_list = []) :=
  ⟨by simp, rfl,
   logging_round_trip (⟨[("mul", fun _ => [1, 2])], [], false⟩ : ProviderState)
     "mul" [([], 0, some 7), ([[], []], 0, none)] false (by simp) rfl⟩
